import Mathlib

/-!
Verification of the check-in aggregation pipeline of `scripts/aggregate.py`.

The Python source is shallowly embedded: strings are Lean `String`s processed
as `List Char` of code points, matching Python string semantics on the ASCII
range the pipeline manipulates; the two regular expressions `DATE_RE` and
`SUBJECT_RE` are embedded as executable matchers reproducing Python `re`
search semantics for those exact patterns; Python's `sorted`, a stable sort,
is embedded as insertion sort, which produces the unique stable ordering for
a total preorder; `collections.Counter` is embedded as an insertion-ordered
association list; fallible code (ISO timestamp parsing, which raises in
Python on malformed input) returns `Option`.
-/

/-- Whitespace test for Python's regex class `\s` and `str.strip` on the ASCII
range: space, tab, newline, vertical tab, form feed, carriage return. -/
def isWs (c : Char) : Bool :=
  decide (c.toNat = 32 ∨ c.toNat = 9 ∨ c.toNat = 10 ∨ c.toNat = 11 ∨ c.toNat = 12 ∨ c.toNat = 13)

/-- ASCII decimal digit, Python regex class `\d`. -/
def isDigitChar (c : Char) : Bool := decide (48 ≤ c.toNat ∧ c.toNat ≤ 57)

/-- Character class `[a-z0-9-]` from the noreply-address patterns in
`canonical_user`. -/
def isLoginChar (c : Char) : Bool :=
  decide ((97 ≤ c.toNat ∧ c.toNat ≤ 122) ∨ (48 ≤ c.toNat ∧ c.toNat ≤ 57) ∨ c.toNat = 45)

/-- Word character, Python regex class `\w` on the ASCII range, used by the
word boundary `\b` in `SUBJECT_RE`. -/
def isWordChar (c : Char) : Bool :=
  decide ((97 ≤ c.toNat ∧ c.toNat ≤ 122) ∨ (65 ≤ c.toNat ∧ c.toNat ≤ 90) ∨
    (48 ≤ c.toNat ∧ c.toNat ≤ 57) ∨ c.toNat = 95)

/-- Lowercasing of one character, Python `str.lower` on the ASCII range. -/
def lowerChar (c : Char) : Char :=
  if 65 ≤ c.toNat ∧ c.toNat ≤ 90 then Char.ofNat (c.toNat + 32) else c

/-- Python `str.strip()`: remove leading and trailing whitespace. -/
def stripWs (l : List Char) : List Char :=
  ((l.dropWhile isWs).reverse.dropWhile isWs).reverse

/-- Python `re.sub` of `\s+` to `-`: replace every maximal whitespace run by a
single hyphen. A whitespace character followed by another whitespace character
is dropped; the last character of a run becomes the hyphen. -/
def collapseWs : List Char → List Char
  | [] => []
  | [c] => if isWs c then ['-'] else [c]
  | c1 :: c2 :: rest =>
    if isWs c1 && isWs c2 then collapseWs (c2 :: rest)
    else (if isWs c1 then '-' else c1) :: collapseWs (c2 :: rest)

/-- Lexicographic comparison of code-point sequences, Python's `<=` on
strings, which is what `sorted(rows, key=lambda r: r["author_iso"])`
compares by. -/
def listLe : List Char → List Char → Bool
  | [], _ => true
  | _ :: _, [] => false
  | a :: s, b :: t =>
    if a.toNat < b.toNat then true
    else if b.toNat < a.toNat then false
    else listLe s t

/-- Suffix `@users.noreply.github.com` required by the two noreply patterns. -/
def NOREPLY : List Char := "@users.noreply.github.com".data

/-- Python `re.match` of pattern `\d+\+([a-z0-9-]+)@users\.noreply\.github\.com$`
against the stripped, lowercased address, returning the capture group. The
greedy `\d+` and `[a-z0-9-]+` are each followed by a character outside their
class, so both runs are exactly the maximal runs. The address was stripped,
so `$` can only match at the end of the string. -/
def matchNoreplyPlus (l : List Char) : Option (List Char) :=
  let ds := l.takeWhile isDigitChar
  if ds.isEmpty then none
  else
    match l.drop ds.length with
    | '+' :: r2 =>
      let g := r2.takeWhile isLoginChar
      if g.isEmpty then none
      else if r2.drop g.length = NOREPLY then some g else none
    | _ => none

/-- Python `re.match` of pattern `([a-z0-9-]+)@users\.noreply\.github\.com$`. -/
def matchNoreply (l : List Char) : Option (List Char) :=
  let g := l.takeWhile isLoginChar
  if g.isEmpty then none
  else if l.drop g.length = NOREPLY then some g else none

/-- Name fallback of `canonical_user`: strip, lowercase, collapse whitespace
runs to hyphens, and fall back to the literal `unknown` when empty. -/
def fromName (author_name : String) : String :=
  let nm := collapseWs ((stripWs author_name.data).map lowerChar)
  if nm.isEmpty then "unknown" else String.mk nm

/-- Embedding of `canonical_user` from `scripts/aggregate.py`: the address is
stripped and lowercased; a nonempty address is tried against the two noreply
patterns, then split at its first `@`; otherwise the name fallback applies. -/
def canonical_user (author_name author_email : String) : String :=
  let ae := (stripWs author_email.data).map lowerChar
  if ae.isEmpty then fromName author_name
  else
    match matchNoreplyPlus ae with
    | some g => String.mk g
    | none =>
      match matchNoreply ae with
      | some g => String.mk g
      | none =>
        if ae.contains '@' then String.mk (ae.takeWhile fun c => c != '@')
        else fromName author_name

/-- Python `str.lower` on a whole string (ASCII range). -/
def lowerStr (s : String) : String := String.mk (s.data.map lowerChar)

/-- Fourteen characters of the literal key of `DATE_RE`. -/
def KEYC : List Char := "Check-In-Date:".data

/-- Shape test for the capture group `\d{4}-\d{2}-\d{2}` of `DATE_RE`. -/
def dateShape (l : List Char) : Bool :=
  match l with
  | [a1, a2, a3, a4, b1, b2, b3, b4, b5, b6] =>
    isDigitChar a1 && isDigitChar a2 && isDigitChar a3 && isDigitChar a4 &&
    (b1 == '-') && isDigitChar b2 && isDigitChar b3 && (b4 == '-') &&
    isDigitChar b5 && isDigitChar b6
  | _ => false

/-- Tail test for `\s*$` under `re.MULTILINE`: after consuming some prefix of
the following whitespace, `$` must match, that is, reach the end of the
string or a position right before a newline. Regex backtracking makes this an
existence test over prefixes of the whitespace run. -/
def endOk : List Char → Bool
  | [] => true
  | c :: rest => if c = '\n' then true else isWs c && endOk rest

/-- Match of the part of `DATE_RE` after the literal key: greedy `\s*` (which
may consume newlines, as `\s` includes the newline), the ten-character date
group, then `\s*$`. The date group starts with a digit, which is not
whitespace, so the whitespace consumed is exactly the maximal run. Returns
the capture group. -/
def matchAfterKey (l : List Char) : Option String :=
  let r := l.dropWhile isWs
  if dateShape (r.take 10) && endOk (r.drop 10) then some (String.mk (r.take 10)) else none

/-- Match of `DATE_RE` at one candidate position; the `^` anchor with
`re.MULTILINE` restricts candidates to the string start and positions right
after a newline. -/
def tryAt (l : List Char) : Option String :=
  if l.take 14 = KEYC then matchAfterKey (l.drop 14) else none

/-- Scan for newline positions and try `DATE_RE` right after each, in order. -/
def searchAfterNl : List Char → Option String
  | [] => none
  | c :: rest =>
    if c = '\n' then
      match tryAt rest with
      | some d => some d
      | none => searchAfterNl rest
    else searchAfterNl rest

/-- Embedding of `DATE_RE.search(body)`, returning the first capture group:
pattern `^Check-In-Date:\s*(\d{4}-\d{2}-\d{2})\s*$` with `re.MULTILINE`,
tried at the string start and after each newline, leftmost match first. -/
def searchDateRE (l : List Char) : Option String :=
  match tryAt l with
  | some d => some d
  | none => searchAfterNl l

/-- Embedding of `SUBJECT_RE.search(subj)`: pattern `^check-in\b` with
`re.IGNORECASE`; without `re.MULTILINE` the `^` anchor confines the search to
position zero. The word boundary after the final `n` holds when the subject
ends there or continues with a non-word character. -/
def looksCheckin (subj : String) : Bool :=
  match subj.data with
  | a1 :: a2 :: a3 :: a4 :: a5 :: a6 :: a7 :: a8 :: rest =>
    (lowerChar a1 == 'c') && (lowerChar a2 == 'h') && (lowerChar a3 == 'e') &&
    (lowerChar a4 == 'c') && (lowerChar a5 == 'k') && (a6 == '-') &&
    (lowerChar a7 == 'i') && (lowerChar a8 == 'n') &&
    (match rest with
     | [] => true
     | d :: _ => !(isWordChar d))
  | _ => false

/-- Decomposition of a character sequence into lines, Python `str.split` on
the newline character; the recursive call is never empty, so prepending to
its head loses nothing. -/
def splitLines : List Char → List (List Char)
  | [] => [[]]
  | c :: rest =>
    if c = '\n' then [] :: splitLines rest
    else (c :: (splitLines rest).headD []) :: (splitLines rest).tail

/-- Predicate written from the specification's words: a single line of the
exact form `Check-In-Date: YYYY-MM-DD`, the case-sensitive key anchored at
the line start, optional whitespace around the date, the line end right
after. Used to compare the specified classifier with the embedded one. -/
def lineTrailer (l : List Char) : Bool :=
  decide (l.take 14 = KEYC) &&
  (dateShape (((l.drop 14).dropWhile isWs).take 10) &&
   (((l.drop 14).dropWhile isWs).drop 10).all isWs)

/-- Literal date carried by a trailer line, when the line is one. -/
def lineTrailerVal (l : List Char) : Option String :=
  if lineTrailer l then some (String.mk (((l.drop 14).dropWhile isWs).take 10)) else none

/-- Days since 1970-01-01 of a proleptic Gregorian civil date, the standard
integer algorithm with floor divisions. -/
def daysFromCivil (y m d : Int) : Int :=
  let y2 := if m ≤ 2 then y - 1 else y
  let era := Int.fdiv y2 400
  let yoe := y2 - era * 400
  let mp := if 2 < m then m - 3 else m + 9
  let doy := Int.fdiv (153 * mp + 2) 5 + d - 1
  let doe := yoe * 365 + Int.fdiv yoe 4 - Int.fdiv yoe 100 + doy
  era * 146097 + doe - 719468

/-- Civil date from days since 1970-01-01, inverse of `daysFromCivil`. -/
def civilFromDays (z : Int) : Int × Int × Int :=
  let z2 := z + 719468
  let era := Int.fdiv z2 146097
  let doe := z2 - era * 146097
  let yoe := Int.fdiv (doe - Int.fdiv doe 1460 + Int.fdiv doe 36524 - Int.fdiv doe 146096) 365
  let y := yoe + era * 400
  let doy := doe - (365 * yoe + Int.fdiv yoe 4 - Int.fdiv yoe 100)
  let mp := Int.fdiv (5 * doy + 2) 153
  let d := doy - Int.fdiv (153 * mp + 2) 5 + 1
  let m := if mp < 10 then mp + 3 else mp - 9
  (if m ≤ 2 then y + 1 else y, m, d)

/-- Parse of a strict ISO 8601 timestamp of the exact shape
`YYYY-MM-DDTHH:MM:SS+HH:MM` (or with a minus sign), the shape git emits for
`%aI` with `--date=iso-strict`, into seconds since the epoch. This is the
slice of Python's `datetime.fromisoformat` the pipeline feeds; other shapes
yield `none`, as Python would raise. -/
def parseIsoStrict (str : String) : Option Int :=
  match str.data with
  | [y1, y2, y3, y4, p1, mo1, mo2, p2, d1, d2, tc, h1, h2, q1, mi1, mi2, q2,
     e1, e2, sg, oh1, oh2, q3, om1, om2] =>
    if (isDigitChar y1 && isDigitChar y2 && isDigitChar y3 && isDigitChar y4 &&
        (p1 == '-') && isDigitChar mo1 && isDigitChar mo2 && (p2 == '-') &&
        isDigitChar d1 && isDigitChar d2 && (tc == 'T') &&
        isDigitChar h1 && isDigitChar h2 && (q1 == ':') &&
        isDigitChar mi1 && isDigitChar mi2 && (q2 == ':') &&
        isDigitChar e1 && isDigitChar e2 &&
        ((sg == '+') || (sg == '-')) &&
        isDigitChar oh1 && isDigitChar oh2 && (q3 == ':') &&
        isDigitChar om1 && isDigitChar om2) then
      let dv := fun c : Char => (c.toNat : Int) - 48
      let year := 1000 * dv y1 + 100 * dv y2 + 10 * dv y3 + dv y4
      let month := 10 * dv mo1 + dv mo2
      let day := 10 * dv d1 + dv d2
      let hh := 10 * dv h1 + dv h2
      let mi := 10 * dv mi1 + dv mi2
      let ss := 10 * dv e1 + dv e2
      let offMin := (10 * dv oh1 + dv oh2) * 60 + (10 * dv om1 + dv om2)
      let sign : Int := if sg == '+' then 1 else -1
      some (daysFromCivil year month day * 86400 + hh * 3600 + mi * 60 + ss - sign * offMin * 60)
    else none
  | _ => none

/-- Zero-padded two digits of a number below one hundred. -/
def twoDig (n : Nat) : List Char :=
  [Char.ofNat (48 + n / 10 % 10), Char.ofNat (48 + n % 10)]

/-- Date formatting `YYYY-MM-DD`, Python `date.isoformat()`. -/
def fmtDate (y m d : Int) : String :=
  String.mk ([Char.ofNat (48 + y.toNat / 1000 % 10), Char.ofNat (48 + y.toNat / 100 % 10),
    Char.ofNat (48 + y.toNat / 10 % 10), Char.ofNat (48 + y.toNat % 10)] ++
    '-' :: twoDig m.toNat ++ '-' :: twoDig d.toNat)

/-- Embedding of `jst_date_from_iso`: parse the ISO timestamp, shift to the
fixed reference timezone Asia/Tokyo (a constant offset of nine hours for the
whole epoch range git produces), and take the calendar date. -/
def jst_date_from_iso (str : String) : Option String :=
  (parseIsoStrict str).map fun secs =>
    match civilFromDays (Int.fdiv (secs + 9 * 3600) 86400) with
    | (y, m, d) => fmtDate y m d

/-- Chronological comparison of two ISO timestamps as instants, written from
the specification's phrase `chronologically earliest authored event`; false
when either side does not parse. -/
def chronLtB (a b : String) : Bool :=
  match parseIsoStrict a, parseIsoStrict b with
  | some x, some y => decide (x < y)
  | _, _ => false

/-- One record of `git_log()`: commit id, authorship timestamp, author name,
author address, subject, body. -/
structure CommitRecord where
  cid : String
  aiso : String
  an : String
  ae : String
  subj : String
  body : String
deriving DecidableEq

/-- One element of the `rows` list built by `extract_checkins`. -/
structure Row where
  commit : String
  date : String
  user : String
  author_iso : String
  author_name : String
  author_email : String
  subject : String
deriving DecidableEq

/-- Classification test of `extract_checkins`: the body matches `DATE_RE` or
the subject matches `SUBJECT_RE`. -/
def classify (c : CommitRecord) : Bool :=
  (searchDateRE c.body.data).isSome || looksCheckin c.subj

/-- Date resolution of `extract_checkins`: the capture group of the first
`DATE_RE` match when the body matches, otherwise the JST calendar date of
the authorship timestamp. -/
def resolveDate (c : CommitRecord) : Option String :=
  match searchDateRE c.body.data with
  | some d => some d
  | none => jst_date_from_iso c.aiso

/-- Row built by `extract_checkins` for one classified record. -/
def buildRow (c : CommitRecord) : Option Row :=
  (resolveDate c).map fun date =>
    { commit := c.cid, date := date, user := canonical_user c.an c.ae,
      author_iso := c.aiso, author_name := c.an, author_email := c.ae, subject := c.subj }

/-- Embedding of `extract_checkins`: keep the classified records and build
their rows; `none` models the run aborting on an unparseable timestamp. -/
def extract_checkins (log : List CommitRecord) : Option (List Row) :=
  (log.filter classify).mapM buildRow

/-- Deduplication key `(date, user)` of one row. -/
def rkey (r : Row) : String × String := (r.date, r.user)

/-- Sort relation of `dedupe` for `prefer=earliest`: ascending `author_iso`
string order. -/
def isoLe (a b : Row) : Prop := listLe a.author_iso.data b.author_iso.data = true

/-- Sort relation of `dedupe` for `prefer=latest`: descending `author_iso`
string order. -/
def isoGe (a b : Row) : Prop := listLe b.author_iso.data a.author_iso.data = true

instance : DecidableRel isoLe := fun a b =>
  inferInstanceAs (Decidable (listLe a.author_iso.data b.author_iso.data = true))

instance : DecidableRel isoGe := fun a b =>
  inferInstanceAs (Decidable (listLe b.author_iso.data a.author_iso.data = true))

/-- Winners of the first-wins walk of `dedupe` over the sorted rows: the first
row carrying each key not yet in `seen` goes to the unique list, in order of
first appearance, exactly as the insertion-ordered Python dict `chosen`. -/
def firstWinsU : List Row → List (String × String) → List Row
  | [], _ => []
  | r :: rest, seen =>
    if rkey r ∈ seen then firstWinsU rest seen
    else r :: firstWinsU rest (rkey r :: seen)

/-- Losers of the first-wins walk of `dedupe`: every row whose key was already
taken, in walk order, exactly as the Python list `dups`. -/
def firstWinsD : List Row → List (String × String) → List Row
  | [], _ => []
  | r :: rest, seen =>
    if rkey r ∈ seen then r :: firstWinsD rest seen
    else firstWinsD rest (rkey r :: seen)

/-- Embedding of `sorted(rows, key=lambda r: r["author_iso"], reverse=...)`:
Python's sort is stable, and a stable sort with a total preorder has a unique
output, which insertion sort also produces. -/
def sortRows (rows : List Row) (prefer : String) : List Row :=
  if prefer = "latest" then List.insertionSort isoGe rows
  else List.insertionSort isoLe rows

/-- Embedding of `dedupe` from `scripts/aggregate.py`. -/
def dedupe (rows : List Row) (prefer : String) : List Row × List Row :=
  if rows = [] then ([], [])
  else (firstWinsU (sortRows rows prefer) [], firstWinsD (sortRows rows prefer) [])

/-- Counter increment on an insertion-ordered association list, Python
`Counter[k] += 1`. -/
def bump : List (String × Nat) → String → List (String × Nat)
  | [], k => [(k, 1)]
  | (k2, v) :: rest, k => if k2 = k then (k2, v + 1) :: rest else (k2, v) :: bump rest k

/-- Counter of a list of keys. -/
def counterOf (ks : List String) : List (String × Nat) := ks.foldl bump []

/-- Embedding of `aggregate`: per-date and per-user counters over the rows. -/
def aggregate (rows : List Row) : List (String × Nat) × List (String × Nat) :=
  (counterOf (rows.map fun r => r.date), counterOf (rows.map fun r => r.user))

/-- Total of the values of a counter, Python `sum(counter.values())`. -/
def sumVals (m : List (String × Nat)) : Nat := (m.map fun p => p.2).sum

/-- Helper: converting a valid code point back out of `Char.ofNat`. -/
theorem toNat_charOfNat (n : Nat) (h : n < 55296) : (Char.ofNat n).toNat = n := by
  have hv : n.isValidChar := Or.inl h
  simp only [Char.ofNat]
  rw [dif_pos hv]
  rfl

/-- Code point of a lowercased character. -/
theorem lowerChar_toNat (c : Char) :
    (lowerChar c).toNat = if 65 ≤ c.toNat ∧ c.toNat ≤ 90 then c.toNat + 32 else c.toNat := by
  unfold lowerChar
  split
  · next h => exact toNat_charOfNat _ (by omega)
  · rfl

/-- Lowercasing is idempotent. -/
theorem lowerChar_idem (c : Char) : lowerChar (lowerChar c) = lowerChar c := by
  have hno : ¬ (65 ≤ (lowerChar c).toNat ∧ (lowerChar c).toNat ≤ 90) := by
    rw [lowerChar_toNat]; split <;> omega
  rw [lowerChar, if_neg hno]

/-- Lowercasing does not change whether a character is whitespace. -/
theorem isWs_lowerChar (c : Char) : isWs (lowerChar c) = isWs c := by
  unfold isWs
  apply decide_eq_decide.mpr
  rw [lowerChar_toNat]
  split <;> omega

/-- String order is reflexive. -/
theorem listLe_refl : ∀ l : List Char, listLe l l = true
  | [] => rfl
  | a :: s => by simp [listLe, listLe_refl s]

/-- Characterization of string order on two nonempty lists. -/
theorem listLe_cons_iff (a b : Char) (s t : List Char) :
    listLe (a :: s) (b :: t) = true ↔
      (a.toNat < b.toNat ∨ (a.toNat = b.toNat ∧ listLe s t = true)) := by
  simp only [listLe]
  split
  · next h => simp [h]
  · next h =>
    split
    · next h2 =>
      simp only [Bool.false_eq_true, false_iff]
      rintro (hc | ⟨hc, -⟩) <;> omega
    · next h2 =>
      have he : a.toNat = b.toNat := by omega
      simp [he]

/-- String order is total. -/
theorem listLe_total : ∀ a b : List Char, listLe a b = true ∨ listLe b a = true
  | [], _ => Or.inl rfl
  | _ :: _, [] => Or.inr rfl
  | a :: s, b :: t => by
    rcases Nat.lt_trichotomy a.toNat b.toNat with h | h | h
    · exact Or.inl ((listLe_cons_iff a b s t).mpr (Or.inl h))
    · rcases listLe_total s t with ih | ih
      · exact Or.inl ((listLe_cons_iff a b s t).mpr (Or.inr ⟨h, ih⟩))
      · exact Or.inr ((listLe_cons_iff b a t s).mpr (Or.inr ⟨h.symm, ih⟩))
    · exact Or.inr ((listLe_cons_iff b a t s).mpr (Or.inl h))

/-- String order is transitive. -/
theorem listLe_trans : ∀ a b c : List Char, listLe a b = true → listLe b c = true →
    listLe a c = true
  | [], _, _, _, _ => rfl
  | _ :: _, [], _, h1, _ => by simp [listLe] at h1
  | _ :: _, _ :: _, [], _, h2 => by simp [listLe] at h2
  | a :: s, b :: t, c :: u, h1, h2 => by
    rw [listLe_cons_iff] at h1 h2 ⊢
    rcases h1 with h1 | ⟨h1e, h1r⟩
    · rcases h2 with h2 | ⟨h2e, h2r⟩
      · exact Or.inl (by omega)
      · exact Or.inl (by omega)
    · rcases h2 with h2 | ⟨h2e, h2r⟩
      · exact Or.inl (by omega)
      · exact Or.inr ⟨by omega, listLe_trans s t u h1r h2r⟩

instance : IsTotal Row isoLe := ⟨fun a b => listLe_total a.author_iso.data b.author_iso.data⟩

instance : IsTrans Row isoLe := ⟨fun _ _ _ h1 h2 => listLe_trans _ _ _ h1 h2⟩

instance : IsTotal Row isoGe := ⟨fun a b => (listLe_total b.author_iso.data a.author_iso.data)⟩

instance : IsTrans Row isoGe := ⟨fun _ _ _ h1 h2 => listLe_trans _ _ _ h2 h1⟩

/-- Packing a nonempty character list never gives the empty string. -/
theorem stringMk_ne_empty {l : List Char} (h : l ≠ []) : String.mk l ≠ "" :=
  fun he => h (congrArg String.data he)

/-- Name fallback is never empty. -/
theorem fromName_ne_empty (n : String) : fromName n ≠ "" := by
  simp only [fromName]
  split
  · intro h; exact absurd h (by decide)
  · next h =>
    intro heq
    exact h (List.isEmpty_iff.mpr (congrArg String.data heq))

/-- A successful noreply-plus match captures a nonempty login. -/
theorem matchNoreplyPlus_ne_nil {l g : List Char} (h : matchNoreplyPlus l = some g) : g ≠ [] := by
  intro hg
  subst hg
  simp only [matchNoreplyPlus] at h
  split at h
  · cases h
  · split at h
    · split at h
      · cases h
      · next hne =>
        split at h
        · injection h with h
          exact hne (List.isEmpty_iff.mpr h)
        · cases h
    · cases h

/-- A successful noreply match captures a nonempty login. -/
theorem matchNoreply_ne_nil {l g : List Char} (h : matchNoreply l = some g) : g ≠ [] := by
  intro hg
  subst hg
  simp only [matchNoreply] at h
  split at h
  · cases h
  · next hne =>
    split at h
    · injection h with h
      exact hne (List.isEmpty_iff.mpr h)
    · cases h

/-- Dropping whitespace commutes with lowercasing. -/
theorem dropWhile_isWs_map_lower (l : List Char) :
    (l.map lowerChar).dropWhile isWs = (l.dropWhile isWs).map lowerChar := by
  rw [List.dropWhile_map]
  have hfun : (isWs ∘ lowerChar) = isWs := funext isWs_lowerChar
  rw [hfun]

/-- Stripping commutes with lowercasing. -/
theorem stripWs_map_lower (l : List Char) :
    stripWs (l.map lowerChar) = (stripWs l).map lowerChar := by
  unfold stripWs
  rw [dropWhile_isWs_map_lower, ← List.map_reverse, dropWhile_isWs_map_lower, ← List.map_reverse]

/-- Lowercasing a list twice equals lowercasing it once. -/
theorem map_lower_idem (l : List Char) :
    (l.map lowerChar).map lowerChar = l.map lowerChar := by
  rw [List.map_map]
  congr 1
  funext c
  exact lowerChar_idem c

/-- C4 (amended): the identity canonicalizer returns the empty string exactly
when the stripped, lowercased address begins with an `@`, that is, when the
address has an empty local part; for every other pair of inputs, including
both arguments empty or whitespace-only, the result is non-empty. -/
theorem claim4_canonical_user_empty_iff (n a : String) :
    canonical_user n a = "" ↔ ((stripWs a.data).map lowerChar).head? = some '@' := by
  rcases hae : (stripWs a.data).map lowerChar with _ | ⟨c, t⟩
  · simp only [canonical_user]
    rw [hae]
    simp [fromName_ne_empty n]
  · simp only [canonical_user]
    rw [hae]
    by_cases hc : c = '@'
    · subst hc
      have hd : isDigitChar '@' = false := by decide
      have hlg : isLoginChar '@' = false := by decide
      have h1 : matchNoreplyPlus ('@' :: t) = none := by
        simp [matchNoreplyPlus, List.takeWhile_cons, hd]
      have h2 : matchNoreply ('@' :: t) = none := by
        simp [matchNoreply, List.takeWhile_cons, hlg]
      have h3 : ('@' :: t).contains '@' = true := by simp
      have h4 : ('@' :: t).takeWhile (fun x => x != '@') = [] := by
        simp [List.takeWhile_cons]
      simp [h1, h2, h3, h4]
    · have hne : ¬ (c :: t).isEmpty = true := by simp
      rw [if_neg hne]
      constructor
      · intro h
        exfalso
        rcases hm1 : matchNoreplyPlus (c :: t) with _ | g
        · rw [hm1] at h
          rcases hm2 : matchNoreply (c :: t) with _ | g
          · rw [hm2] at h
            by_cases hct : (c :: t).contains '@' = true
            · rw [if_pos hct] at h
              have hcons : (c :: t).takeWhile (fun x => x != '@') =
                  c :: t.takeWhile (fun x => x != '@') := by
                simp [List.takeWhile_cons, hc]
              rw [hcons] at h
              exact stringMk_ne_empty (by simp) h
            · rw [if_neg hct] at h
              exact fromName_ne_empty n h
          · rw [hm2] at h
            exact stringMk_ne_empty (matchNoreply_ne_nil hm2) h
        · rw [hm1] at h
          exact stringMk_ne_empty (matchNoreplyPlus_ne_nil hm1) h
      · intro h
        simp at h
        exact absurd h hc

/-- C4 counterexample: an address whose local part before the first `@` is
empty makes the canonicalizer return the empty string, refuting the claimed
unconditional non-emptiness. -/
theorem claim4_counterexample : canonical_user "Jane" "@example.com" = "" := by decide

/-- C4 witness: the amended theorem applied at a concrete pair with a normal
address yields a non-empty result. -/
theorem claim4_witness : canonical_user "x" "a@b" ≠ "" :=
  fun h => absurd ((claim4_canonical_user_empty_iff "x" "a@b").mp h) (by decide)

/-- C8: on an empty address and the name `Jane Q. Doe`, the canonicalizer
returns exactly `jane-q.-doe`: trimmed, lowercased, each maximal whitespace
run replaced by one hyphen, punctuation untouched. -/
theorem claim8_scenario_b : canonical_user "Jane Q. Doe" "" = "jane-q.-doe" := by decide

/-- C9: the identity canonicalizer is a pure function of its two arguments,
and it is insensitive to the case of the address: lowercasing the address
before the call does not change the result. -/
theorem claim9_canonical_user_pure_case_insensitive (n a : String) :
    canonical_user n a = canonical_user n a ∧
      canonical_user n a = canonical_user n (lowerStr a) := by
  refine ⟨rfl, ?_⟩
  have key : (stripWs (lowerStr a).data).map lowerChar = (stripWs a.data).map lowerChar := by
    show (stripWs (a.data.map lowerChar)).map lowerChar = _
    rw [stripWs_map_lower, map_lower_idem]
  simp only [canonical_user]
  rw [key]

/-- C10: the duplicate resolver treats every preference string other than the
exact literal `latest` as `earliest`, producing the identical partition; the
embedded function is total, mirroring that the Python code raises no error
for any preference value. -/
theorem claim10_unknown_prefer_is_earliest (rows : List Row) (p : String) (hp : p ≠ "latest") :
    dedupe rows p = dedupe rows "earliest" := by
  unfold dedupe sortRows
  rw [if_neg hp, if_neg (by decide : ¬ ("earliest" = "latest"))]

/-- Sample row used by concrete instantiations of the dedupe theorems. -/
def rowD : Row :=
  { commit := "d1", date := "2025-08-14", user := "alice",
    author_iso := "2025-08-14T08:00:00+09:00", author_name := "Alice",
    author_email := "alice@example.com", subject := "check-in" }

/-- C10 witness: the mixed-case preference `Latest` is treated as `earliest`
on a concrete input. -/
theorem claim10_witness : dedupe [rowD] "Latest" = dedupe [rowD] "earliest" :=
  claim10_unknown_prefer_is_earliest [rowD] "Latest" (by decide)

/-- Rows selected by the first-wins walk carry keys outside `seen`. -/
theorem firstWinsU_notin_seen : ∀ (l : List Row) (seen : List (String × String)) (r : Row),
    r ∈ firstWinsU l seen → rkey r ∉ seen := by
  intro l
  induction l with
  | nil => intro seen r h; simp [firstWinsU] at h
  | cons a rest ih =>
    intro seen r h
    simp only [firstWinsU] at h
    split at h
    · exact ih seen r h
    · next hnotin =>
      rcases List.mem_cons.mp h with h1 | h1
      · subst h1; exact hnotin
      · intro hmem
        exact ih _ r h1 (List.mem_cons_of_mem _ hmem)

/-- Rows selected by the first-wins walk have pairwise distinct keys. -/
theorem firstWinsU_keys_nodup : ∀ (l : List Row) (seen : List (String × String)),
    (firstWinsU l seen).Pairwise (fun a b => rkey a ≠ rkey b) := by
  intro l
  induction l with
  | nil => intro seen; simp [firstWinsU]
  | cons a rest ih =>
    intro seen
    simp only [firstWinsU]
    split
    · exact ih seen
    · refine List.Pairwise.cons ?_ (ih _)
      intro b hb heq
      exact firstWinsU_notin_seen _ _ b hb (heq ▸ List.mem_cons_self _ _)

/-- The first-wins walk partitions its input: winners and losers together are
a permutation of the walked list. -/
theorem firstWins_append_perm : ∀ (l : List Row) (seen : List (String × String)),
    (firstWinsU l seen ++ firstWinsD l seen).Perm l := by
  intro l
  induction l with
  | nil => intro seen; simp [firstWinsU, firstWinsD]
  | cons a rest ih =>
    intro seen
    simp only [firstWinsU, firstWinsD]
    split
    · exact List.perm_middle.trans ((ih seen).cons a)
    · simpa using (ih _).cons a

/-- Over a list sorted by a reflexive relation, each first-wins winner is
below every element of the list sharing its key. -/
theorem firstWinsU_min (le : Row → Row → Prop) (hrefl : ∀ x, le x x) :
    ∀ (l : List Row) (seen : List (String × String)),
      l.Pairwise le → ∀ r, r ∈ firstWinsU l seen → ∀ s, s ∈ l → rkey s = rkey r → le r s := by
  intro l
  induction l with
  | nil => intro seen _ r h; simp [firstWinsU] at h
  | cons a rest ih =>
    intro seen hpair r hr s hs hk
    simp only [firstWinsU] at hr
    split at hr
    · next hin =>
      rcases List.mem_cons.mp hs with h1 | h1
      · exfalso
        apply firstWinsU_notin_seen _ _ r hr
        rw [← hk, h1]
        exact hin
      · exact ih seen hpair.of_cons r hr s h1 hk
    · next hnotin =>
      rcases List.mem_cons.mp hr with h2 | h2
      · subst h2
        rcases List.mem_cons.mp hs with h1 | h1
        · rw [h1]; exact hrefl r
        · exact List.rel_of_pairwise_cons hpair h1
      · rcases List.mem_cons.mp hs with h1 | h1
        · exfalso
          apply firstWinsU_notin_seen _ _ r h2
          rw [← hk, h1]
          exact List.mem_cons_self _ _
        · exact ih _ hpair.of_cons r h2 s h1 hk

/-- Every key present in the walked list and not yet seen gets a winner. -/
theorem firstWinsU_exists_key : ∀ (l : List Row) (seen : List (String × String))
    (k : String × String), k ∉ seen → (∃ r, r ∈ l ∧ rkey r = k) →
    ∃ u, u ∈ firstWinsU l seen ∧ rkey u = k := by
  intro l
  induction l with
  | nil => intro seen k _ h; simp at h
  | cons a rest ih =>
    intro seen k hk ⟨r, hr, hrk⟩
    simp only [firstWinsU]
    split
    · next hin =>
      have hra : r ∈ rest := by
        rcases List.mem_cons.mp hr with h1 | h1
        · exfalso; apply hk; rw [← hrk, h1]; exact hin
        · exact h1
      exact ih seen k hk ⟨r, hra, hrk⟩
    · next hnotin =>
      by_cases hak : rkey a = k
      · exact ⟨a, List.mem_cons_self _ _, hak⟩
      · have hra : r ∈ rest := by
          rcases List.mem_cons.mp hr with h1 | h1
          · exfalso; apply hak; rw [← h1]; exact hrk
          · exact h1
        have hknot : k ∉ rkey a :: seen := by
          intro hmem
          rcases List.mem_cons.mp hmem with he | he
          · exact hak he.symm
          · exact hk he
        obtain ⟨u, hu, huk⟩ := ih (rkey a :: seen) k hknot ⟨r, hra, hrk⟩
        exact ⟨u, List.mem_cons_of_mem _ hu, huk⟩

/-- Sorting the rows only permutes them, for either preference. -/
theorem sortRows_perm (rows : List Row) (p : String) : (sortRows rows p).Perm rows := by
  unfold sortRows
  split
  · exact List.perm_insertionSort _ _
  · exact List.perm_insertionSort _ _

/-- C1 (amended): for each `(date, user)` key, the event placed in the unique
list under `prefer=earliest` carries the lexicographically least `author_iso`
string among all input events with that key, and under `prefer=latest` the
lexicographically greatest, regardless of input order; this coincides with
chronological order exactly when the compared timestamps carry equal UTC
offsets. -/
theorem claim1_winner_extreme_author_iso (rows : List Row) (r s : Row) :
    (r ∈ (dedupe rows "earliest").1 → s ∈ rows → rkey s = rkey r →
      listLe r.author_iso.data s.author_iso.data = true) ∧
    (r ∈ (dedupe rows "latest").1 → s ∈ rows → rkey s = rkey r →
      listLe s.author_iso.data r.author_iso.data = true) := by
  constructor
  · intro hr hs hk
    by_cases hn : rows = []
    · subst hn
      rw [dedupe, if_pos rfl] at hr
      simp at hr
    · rw [dedupe, if_neg hn] at hr
      have hsort : sortRows rows "earliest" = List.insertionSort isoLe rows := by
        unfold sortRows
        rw [if_neg (by decide : ¬ ("earliest" = "latest"))]
      rw [hsort] at hr
      have hpair : (List.insertionSort isoLe rows).Pairwise isoLe :=
        List.sorted_insertionSort isoLe rows
      have hs2 : s ∈ List.insertionSort isoLe rows :=
        (List.perm_insertionSort isoLe rows).mem_iff.mpr hs
      exact firstWinsU_min isoLe (fun x => listLe_refl _) _ [] hpair r hr s hs2 hk
  · intro hr hs hk
    by_cases hn : rows = []
    · subst hn
      rw [dedupe, if_pos rfl] at hr
      simp at hr
    · rw [dedupe, if_neg hn] at hr
      have hsort : sortRows rows "latest" = List.insertionSort isoGe rows := by
        unfold sortRows
        rw [if_pos rfl]
      rw [hsort] at hr
      have hpair : (List.insertionSort isoGe rows).Pairwise isoGe :=
        List.sorted_insertionSort isoGe rows
      have hs2 : s ∈ List.insertionSort isoGe rows :=
        (List.perm_insertionSort isoGe rows).mem_iff.mpr hs
      exact firstWinsU_min isoGe (fun x => listLe_refl _) _ [] hpair r hr s hs2 hk

/-- Row authored at 01:00 UTC, written with the offset of its author. -/
def rowE1 : Row :=
  { commit := "e1", date := "2025-08-14", user := "alice",
    author_iso := "2025-08-14T10:00:00+09:00", author_name := "Alice",
    author_email := "alice@example.com", subject := "check-in" }

/-- Row with the same key authored four hours later, at 05:00 UTC. -/
def rowE2 : Row :=
  { commit := "e2", date := "2025-08-14", user := "alice",
    author_iso := "2025-08-14T05:00:00+00:00", author_name := "Alice",
    author_email := "alice@example.com", subject := "check-in" }

/-- C1 counterexample: with mixed UTC offsets the winner under
`prefer=earliest` is not the chronologically earliest authored event. The
first row is authored strictly earlier as an instant, yet the resolver sorts
the raw `author_iso` strings, keeps the second row as the winner, and sends
the chronologically earliest one to the duplicate list. -/
theorem claim1_counterexample :
    chronLtB rowE1.author_iso rowE2.author_iso = true ∧
    (dedupe [rowE1, rowE2] "earliest").1 = [rowE2] ∧
    (dedupe [rowE1, rowE2] "earliest").2 = [rowE1] := by decide

/-- Row of the two-commit scenario authored at the earlier timestamp. -/
def rowA : Row :=
  { commit := "a1", date := "2025-08-14", user := "alice",
    author_iso := "2025-08-14T08:00:00+09:00", author_name := "Alice",
    author_email := "alice@example.com", subject := "check-in" }

/-- Row of the two-commit scenario authored at the later timestamp. -/
def rowB : Row :=
  { commit := "a2", date := "2025-08-14", user := "alice",
    author_iso := "2025-08-14T09:00:00+09:00", author_name := "Alice",
    author_email := "alice@example.com", subject := "check-in" }

/-- C1 witness: in the two-commit scenario with a shared offset and the later
event listed first, the amended theorem places the earlier-authored event in
the unique list. -/
theorem claim1_witness :
    rowA ∈ (dedupe [rowB, rowA] "earliest").1 ∧ rowB ∈ ([rowB, rowA] : List Row) ∧
    rkey rowB = rkey rowA ∧ listLe rowA.author_iso.data rowB.author_iso.data = true :=
  ⟨by decide, by decide, by decide,
    (claim1_winner_extreme_author_iso [rowB, rowA] rowA rowB).1 (by decide) (by decide)
      (by decide)⟩

/-- C2 (amended): for every input list, every preference and every key present
in the input, the resolver keeps exactly one winner carrying that key; but
when `authored_at` values tie, the winner is the tied event earliest in input
order, not the one picked by `commit_id` ordering, so permuting the input can
change the winner. -/
theorem claim2_exactly_one_winner_per_key (rows : List Row) (p : String) (k : String × String)
    (hk : ∃ r, r ∈ rows ∧ rkey r = k) :
    ∃! u, u ∈ (dedupe rows p).1 ∧ rkey u = k := by
  obtain ⟨r0, hr0, hk0⟩ := hk
  have hn : rows ≠ [] := by intro h; subst h; simp at hr0
  rw [dedupe, if_neg hn]
  have hperm := sortRows_perm rows p
  obtain ⟨u, hu, huk⟩ := firstWinsU_exists_key (sortRows rows p) [] k (by simp)
    ⟨r0, hperm.mem_iff.mpr hr0, hk0⟩
  refine ⟨u, ⟨hu, huk⟩, ?_⟩
  rintro v ⟨hv, hvk⟩
  by_contra hne
  have hsym : Symmetric (fun a b : Row => rkey a ≠ rkey b) := fun a b h he => h he.symm
  exact (List.Pairwise.forall hsym (firstWinsU_keys_nodup (sortRows rows p) []) hv hu hne)
    (hvk.trans huk.symm)

/-- Tied row whose commit id orders second. -/
def rowT1 : Row :=
  { commit := "bbb", date := "2025-08-14", user := "alice",
    author_iso := "2025-08-14T07:00:00+09:00", author_name := "Alice",
    author_email := "alice@example.com", subject := "check-in" }

/-- Tied row with identical `author_iso` whose commit id orders first. -/
def rowT2 : Row :=
  { commit := "aaa", date := "2025-08-14", user := "alice",
    author_iso := "2025-08-14T07:00:00+09:00", author_name := "Alice",
    author_email := "alice@example.com", subject := "check-in" }

/-- C2 counterexample: two events with the same key and identical
`authored_at` but distinct commit ids. Feeding the two permutations of the
same pair selects different winners, and the winner of the first order is the
row whose commit id is lexicographically larger, so the tie is broken by
input position, not by `commit_id` ordering. -/
theorem claim2_counterexample :
    (dedupe [rowT1, rowT2] "earliest").1 = [rowT1] ∧
    (dedupe [rowT2, rowT1] "earliest").1 = [rowT2] ∧
    rowT1 ≠ rowT2 ∧
    listLe rowT2.commit.data rowT1.commit.data = true ∧
    List.Perm [rowT1, rowT2] [rowT2, rowT1] :=
  ⟨by decide, by decide, by decide, by decide, List.Perm.swap rowT2 rowT1 []⟩

/-- C2 witness: the amended theorem applied to a concrete one-row input
yields its unique winner. -/
theorem claim2_witness :
    ∃! u, u ∈ (dedupe [rowA] "earliest").1 ∧ rkey u = ("2025-08-14", "alice") :=
  claim2_exactly_one_winner_per_key [rowA] "earliest" ("2025-08-14", "alice")
    ⟨rowA, by decide, by decide⟩

/-- C3: for every input list and either preference the two returned lists are
an exact partition of the input: together they are a permutation of the input
(so each input event appears exactly once across the two lists and the
lengths add up), and no two members of the unique list share a key. -/
theorem claim3_partition_invariant (rows : List Row) (p : String) :
    ((dedupe rows p).1 ++ (dedupe rows p).2).Perm rows ∧
    (dedupe rows p).1.length + (dedupe rows p).2.length = rows.length ∧
    (dedupe rows p).1.Pairwise (fun a b => rkey a ≠ rkey b) := by
  by_cases hn : rows = []
  · subst hn
    simp [dedupe]
  · rw [dedupe, if_neg hn]
    have hperm := (firstWins_append_perm (sortRows rows p) []).trans (sortRows_perm rows p)
    refine ⟨hperm, ?_, firstWinsU_keys_nodup _ _⟩
    have hlen := hperm.length_eq
    simpa using hlen

/-- Line splitting never returns an empty list of lines. -/
theorem splitLines_ne_nil : ∀ l : List Char, splitLines l ≠ []
  | [] => by simp [splitLines]
  | c :: rest => by
    simp only [splitLines]
    split <;> simp

/-- Structure of the first line: it holds no newline, and the input is either
that single line or that line, a newline, and a remainder whose lines are the
remaining lines. -/
theorem splitLines_decomp : ∀ (l h : List Char) (t : List (List Char)),
    splitLines l = h :: t →
    '\n' ∉ h ∧ ((l = h ∧ t = []) ∨ ∃ u, l = h ++ '\n' :: u ∧ splitLines u = t)
  | [], h, t, he => by
    simp only [splitLines] at he
    injection he with he1 he2
    subst he1
    subst he2
    exact ⟨by simp, Or.inl ⟨rfl, rfl⟩⟩
  | c :: rest, h, t, he => by
    by_cases hc : c = '\n'
    · subst hc
      simp only [splitLines, if_pos rfl] at he
      injection he with he1 he2
      subst he1
      subst he2
      exact ⟨by simp, Or.inr ⟨rest, by simp, rfl⟩⟩
    · rcases hsr : splitLines rest with _ | ⟨h2, t2⟩
      · exact absurd hsr (splitLines_ne_nil rest)
      · simp only [splitLines, if_neg hc, hsr, List.headD_cons, List.tail_cons] at he
        injection he with he1 he2
        obtain ⟨hnotin, hcase⟩ := splitLines_decomp rest h2 t2 hsr
        subst he1
        subst he2
        constructor
        · intro hmem
          rcases List.mem_cons.mp hmem with hm | hm
          · exact hc hm.symm
          · exact hnotin hm
        · rcases hcase with ⟨hr, ht⟩ | ⟨u, hu, hsu⟩
          · exact Or.inl ⟨by rw [hr], ht⟩
          · exact Or.inr ⟨u, by rw [hu]; simp, hsu⟩

/-- The `\s*$` tail test succeeds on a whitespace run followed by nothing or
by a newline. -/
theorem endOk_append_ws : ∀ (w : List Char), (∀ c ∈ w, isWs c = true) →
    ∀ (rest : List Char), (rest = [] ∨ ∃ u, rest = '\n' :: u) → endOk (w ++ rest) = true
  | [], _, rest, hr => by
    rcases hr with rfl | ⟨u, rfl⟩
    · rfl
    · simp [endOk]
  | c :: w, hw, rest, hr => by
    simp only [List.cons_append, endOk]
    split
    · rfl
    · rw [hw c (by simp)]
      simpa using endOk_append_ws w (fun d hd => hw d (by simp [hd])) rest hr

/-- A list passing the date-shape test has exactly ten characters. -/
theorem dateShape_length : ∀ {l : List Char}, dateShape l = true → l.length = 10 := by
  intro l h
  unfold dateShape at h
  split at h
  · simp_all
  · exact absurd h (by simp)

/-- A trailer line placed at a candidate position, followed by nothing or by a
newline and more text, makes the anchored pattern match there. -/
theorem tryAt_of_lineTrailer (line : List Char) (hl : lineTrailer line = true)
    (rest : List Char) (hr : rest = [] ∨ ∃ u, rest = '\n' :: u) :
    (tryAt (line ++ rest)).isSome = true := by
  have h1 : line.take 14 = KEYC ∧
      (dateShape (((line.drop 14).dropWhile isWs).take 10) = true ∧
       (((line.drop 14).dropWhile isWs).drop 10).all isWs = true) := by
    simpa [lineTrailer, Bool.and_eq_true, decide_eq_true_eq] using hl
  obtain ⟨hkey, hshape, hall⟩ := h1
  have hlen : 14 ≤ line.length := by
    have hl14 := congrArg List.length hkey
    rw [List.length_take] at hl14
    have hk14 : KEYC.length = 14 := by decide
    omega
  unfold tryAt
  rw [List.take_append_of_le_length hlen, hkey, if_pos rfl,
      List.drop_append_of_le_length hlen]
  simp only [matchAfterKey]
  have hrne : ((line.drop 14).dropWhile isWs) ≠ [] := by
    intro h0
    rw [h0] at hshape
    simp [dateShape] at hshape
  have hsplit : ((line.drop 14) ++ rest).dropWhile isWs =
      ((line.drop 14).dropWhile isWs) ++ rest := by
    rw [List.dropWhile_append, if_neg (by simpa [List.isEmpty_iff] using hrne)]
  rw [hsplit]
  have h10 : 10 ≤ ((line.drop 14).dropWhile isWs).length := by
    have hdl := dateShape_length hshape
    rw [List.length_take] at hdl
    omega
  rw [List.take_append_of_le_length h10, List.drop_append_of_le_length h10]
  rw [hshape]
  rw [endOk_append_ws _ (List.all_eq_true.mp hall) rest hr]
  simp

/-- A match at the string start makes the whole search succeed. -/
theorem searchDateRE_isSome_of_tryAt {l : List Char} (h : (tryAt l).isSome = true) :
    (searchDateRE l).isSome = true := by
  rcases hta : tryAt l with _ | d
  · rw [hta] at h; simp at h
  · simp [searchDateRE, hta]

/-- Scanning across a newline-free block reaches the search of the remainder. -/
theorem searchAfterNl_no_nl (line : List Char) (hline : '\n' ∉ line) (rest : List Char) :
    searchAfterNl (line ++ '\n' :: rest) = searchDateRE rest := by
  induction line with
  | nil =>
    simp only [List.nil_append]
    simp [searchAfterNl, searchDateRE]
  | cons c line ih =>
    have hc : ¬ (c = '\n') := fun h => hline (by simp [h])
    simp only [List.cons_append, searchAfterNl]
    rw [if_neg hc]
    exact ih (fun h => hline (List.mem_cons_of_mem _ h))

/-- A body containing a whole trailer line makes the anchored search succeed;
stated with an explicit length bound for the strong induction over lines. -/
theorem searchDateRE_of_any_lineTrailer : ∀ (n : Nat) (l : List Char), l.length ≤ n →
    (splitLines l).any lineTrailer = true → (searchDateRE l).isSome = true := by
  intro n
  induction n with
  | zero =>
    intro l hl h
    have hnil : l = [] := List.eq_nil_of_length_eq_zero (Nat.le_zero.mp hl)
    subst hnil
    simp [splitLines] at h
    exact absurd h (by decide)
  | succ n ih =>
    intro l hl h
    rcases hsl : splitLines l with _ | ⟨h0, t0⟩
    · exact absurd hsl (splitLines_ne_nil l)
    · obtain ⟨hnn, hcase⟩ := splitLines_decomp l h0 t0 hsl
      rw [hsl] at h
      simp only [List.any_cons, Bool.or_eq_true] at h
      rcases h with hfirst | hrest
      · rcases hcase with ⟨hl0, ht0⟩ | ⟨u, hu, hsu⟩
        · have hts := tryAt_of_lineTrailer h0 hfirst [] (Or.inl rfl)
          rw [List.append_nil] at hts
          rw [← hl0] at hts
          exact searchDateRE_isSome_of_tryAt hts
        · have hts := tryAt_of_lineTrailer h0 hfirst ('\n' :: u) (Or.inr ⟨u, rfl⟩)
          rw [← hu] at hts
          exact searchDateRE_isSome_of_tryAt hts
      · rcases hcase with ⟨hl0, ht0⟩ | ⟨u, hu, hsu⟩
        · rw [ht0] at hrest; simp at hrest
        · have hulen : u.length ≤ n := by
            have hlu := congrArg List.length hu
            simp [List.length_append] at hlu
            omega
          have hany : (splitLines u).any lineTrailer = true := by rw [hsu]; exact hrest
          have hsu2 := ih u hulen hany
          rcases hta : tryAt l with _ | d
          · have hse : searchDateRE l = searchAfterNl l := by
              simp [searchDateRE, hta]
            rw [hse, hu, searchAfterNl_no_nl h0 hnn u]
            exact hsu2
          · simp [searchDateRE, hta]

/-- C5 (amended): the classifier accepts a record exactly when the body
matches the anchored trailer pattern or the subject starts with the
case-insensitive token `check-in`; a body containing a whole line of the
exact trailer form is always accepted, but the pattern's flexible whitespace
may span line breaks, so the key and its date may also sit on consecutive
lines. -/
theorem claim5_classifier_disjunction (c : CommitRecord) :
    ((splitLines c.body.data).any lineTrailer = true → classify c = true) ∧
    (classify c = true ↔
      ((searchDateRE c.body.data).isSome = true ∨ looksCheckin c.subj = true)) := by
  constructor
  · intro h
    have hs := searchDateRE_of_any_lineTrailer c.body.data.length c.body.data le_rfl h
    simp [classify, hs]
  · simp [classify]

/-- Record whose body splits the trailer key and date across two lines. -/
def cex5 : CommitRecord :=
  { cid := "c5x", aiso := "2025-01-01T00:00:00+00:00", an := "A", ae := "a@b.c",
    subj := "x", body := "Check-In-Date:\n2025-01-01" }

/-- C5 counterexample: a record accepted by the classifier although its body
contains no single line of the exact trailer form and its subject lacks the
`check-in` token, refuting the claimed equivalence as stated. -/
theorem claim5_counterexample :
    classify cex5 = true ∧ (splitLines cex5.body.data).any lineTrailer = false ∧
      looksCheckin cex5.subj = false := by decide

/-- Record with an ordinary single-line trailer inside a larger body. -/
def wit5 : CommitRecord :=
  { cid := "c5w", aiso := "2025-01-01T00:00:00+00:00", an := "A", ae := "a@b.c",
    subj := "misc", body := "notes\nCheck-In-Date: 2025-08-14\nbye" }

/-- C5 witness: the amended theorem applied to a record with a proper trailer
line and a non-matching subject. -/
theorem claim5_witness :
    classify wit5 = true ∧
      ((searchDateRE wit5.body.data).isSome = true ∨ looksCheckin wit5.subj = true) :=
  ⟨(claim5_classifier_disjunction wit5).1 (by decide),
    (claim5_classifier_disjunction wit5).2.mp ((claim5_classifier_disjunction wit5).1 (by decide))⟩

/-- C6 (amended): the resolved date is the capture group of the first match
of the anchored trailer pattern whenever the body matches it, taken verbatim
and never re-validated against the authorship timestamp; when the body does
not match, the resolved date is the JST calendar date of the authorship
timestamp. When the body's only candidate is a proper trailer line, the first
match is that line, so the trailer's literal date wins. -/
theorem claim6_trailer_precedence (c : CommitRecord) :
    (∀ d, searchDateRE c.body.data = some d → resolveDate c = some d) ∧
    (searchDateRE c.body.data = none → resolveDate c = jst_date_from_iso c.aiso) := by
  constructor
  · intro d hd
    simp [resolveDate, hd]
  · intro hd
    simp [resolveDate, hd]

/-- Record holding exactly one proper trailer line, but also an earlier
cross-line candidate for the anchored pattern. -/
def cex6 : CommitRecord :=
  { cid := "c6x", aiso := "2025-01-01T00:00:00+00:00", an := "A", ae := "a@b.c",
    subj := "x", body := "Check-In-Date:\n1111-11-11\nCheck-In-Date: 2025-01-01" }

/-- C6 counterexample: the body contains exactly one trailer line, whose
literal date is `2025-01-01`, yet the resolved date is the capture of an
earlier cross-line match, refuting -- as universally stated -- that the
resolved date is the literal date of the trailer line whenever one is
present. -/
theorem claim6_counterexample :
    (splitLines cex6.body.data).filterMap lineTrailerVal = ["2025-01-01"] ∧
      resolveDate cex6 = some "1111-11-11" := by decide

/-- Record of the trailer-wins scenario: the trailer says `2025-01-01` while
the authorship instant converts to `2025-01-02` in JST. -/
def wit6 : CommitRecord :=
  { cid := "c6w", aiso := "2025-01-01T20:00:00+00:00", an := "A", ae := "a@b.c",
    subj := "x", body := "Check-In-Date: 2025-01-01" }

/-- C6 witness: on the trailer-wins scenario the amended theorem returns the
trailer's literal date even though the timestamp converts to the next day. -/
theorem claim6_witness :
    searchDateRE wit6.body.data = some "2025-01-01" ∧
      resolveDate wit6 = some "2025-01-01" ∧
      jst_date_from_iso wit6.aiso = some "2025-01-02" :=
  ⟨by decide, (claim6_trailer_precedence wit6).1 "2025-01-01" (by decide), by decide⟩

/-- Value total of a counter with one entry exposed. -/
theorem sumVals_cons (a : String × Nat) (m : List (String × Nat)) :
    sumVals (a :: m) = a.2 + sumVals m := by
  simp [sumVals]

/-- One increment raises the value total by exactly one. -/
theorem sumVals_bump : ∀ (m : List (String × Nat)) (k : String),
    sumVals (bump m k) = sumVals m + 1
  | [], k => by simp [bump, sumVals]
  | (k2, v) :: rest, k => by
    simp only [bump]
    split
    · simp [sumVals_cons]
      omega
    · simp [sumVals_cons, sumVals_bump rest k]
      omega

/-- Folding the counter over a key list adds the list length to the total. -/
theorem sumVals_foldl : ∀ (ks : List String) (m : List (String × Nat)),
    sumVals (ks.foldl bump m) = sumVals m + ks.length
  | [], m => by simp
  | k :: ks, m => by
    simp only [List.foldl_cons]
    rw [sumVals_foldl ks (bump m k), sumVals_bump]
    simp [List.length_cons]
    omega

/-- C7: the aggregator's two outputs each total to the number of processed
events: every event increments exactly one date key and exactly one user key,
so both value sums equal the length of the unique-event list. -/
theorem claim7_aggregate_totals (rows : List Row) :
    sumVals (aggregate rows).1 = rows.length ∧ sumVals (aggregate rows).2 = rows.length := by
  unfold aggregate counterOf
  constructor
  · rw [sumVals_foldl]
    simp [sumVals]
  · rw [sumVals_foldl]
    simp [sumVals]
